import Mathlib

/-!
# Verification of the libMesh `DofMap` specification

A shallow embedding of the degree-of-freedom (DOF) bookkeeping of
libMesh's `DofMap` (`include/base/dof_map.h`) together with proofs of the
spec's claims about it.

Conventions of the embedding:

* `dof_id_type` and `processor_id_type` are modelled as `Nat`.
* `Real` / `Number` coefficients are modelled exactly, as `ℚ`.
* `std::map<K,V>` fields are modelled as association lists
  `List (K × V)`; `lookupList` mirrors `map::find`, and `isConstrained`
  mirrors `_dof_constraints.count(dof)` from `DofMap::is_constrained_dof`.
* Functions whose bodies live in the header (`first_dof`, `end_dof`,
  `n_dofs_on_processor`, `dof_owner`, `stash/unstash/swap_dof_constraints`,
  `is_constrained_dof`, `has_heterogenous_adjoint_constraint[s]`) are
  translated directly from their inline C++ definitions.
* Functions whose bodies are not part of the excerpt
  (`distribute_dofs`, `process_constraints`, `check_for_constraint_loops`,
  `add_constraint_row`, `constrain_element_matrix_and_vector`, the
  Dirichlet-boundary application) are modelled from the specification, as
  marked in their doc comments.
-/

namespace LibmeshDofMap

/-- A row of the Dof constraint matrix: `DofConstraintRow` is
`std::map<dof_id_type, Real>`; modelled as an association list from DOF
ids to exact coefficients. -/
abbrev DofConstraintRow := List (Nat × ℚ)

/-- The constraint matrix storage format: `DofConstraints` is
`std::map<dof_id_type, DofConstraintRow>`. -/
abbrev DofConstraints := List (Nat × DofConstraintRow)

/-- Storage for DofConstraint right hand sides: `DofConstraintValueMap`
is `std::map<dof_id_type, Number>`. -/
abbrev DofConstraintValueMap := List (Nat × ℚ)

/-- Storage for DofConstraint right hand sides for all adjoint problems:
`AdjointDofConstraintValues` is
`std::map<unsigned int, DofConstraintValueMap>`. -/
abbrev AdjointDofConstraintValues := List (Nat × DofConstraintValueMap)

/-- `map::find`: return the value stored at the first matching key, if
any.  Association-list model of `std::map` lookup. -/
def lookupList {β : Type} : List (Nat × β) → Nat → Option β
  | [], _ => none
  | (k, v) :: rest, d => if k = d then some v else lookupList rest d

/-- `DofMap::is_constrained_dof` (header, lines 2012–2019):
`if (_dof_constraints.count(dof)) return true; return false;`. -/
def isConstrained (t : DofConstraints) (d : Nat) : Bool :=
  (lookupList t d).isSome

/-- The constraint-table part of the `DofMap` state: the active
`_dof_constraints` map and the `_stashed_dof_constraints` map
(header, line 1876). -/
structure ConstraintState where
  dof_constraints : DofConstraints
  stashed_dof_constraints : DofConstraints
  deriving DecidableEq

/-- `DofMap::stash_dof_constraints` (header, lines 1022–1026):
asserts `_stashed_dof_constraints.empty()` and then swaps
`_dof_constraints` with `_stashed_dof_constraints`.  The assertion is a
precondition; the state change is the swap. -/
def stashDofConstraints (s : ConstraintState) : ConstraintState :=
  { dof_constraints := s.stashed_dof_constraints
    stashed_dof_constraints := s.dof_constraints }

/-- `DofMap::unstash_dof_constraints` (header, lines 1028–1032):
asserts `_dof_constraints.empty()` and then swaps the two maps. -/
def unstashDofConstraints (s : ConstraintState) : ConstraintState :=
  { dof_constraints := s.stashed_dof_constraints
    stashed_dof_constraints := s.dof_constraints }

/-- `DofMap::has_heterogenous_adjoint_constraints` (header, lines
2022–2033): `find(qoi_num)`; if absent return `false`; if the found
value map is empty return `false`; otherwise `true`. -/
def hasHeterogenousAdjointConstraints
    (avs : AdjointDofConstraintValues) (qoi_num : Nat) : Bool :=
  match lookupList avs qoi_num with
  | none => false
  | some m => if m.isEmpty then false else true

/-- `DofMap::has_heterogenous_adjoint_constraint` (header, lines
2036–2053): `find(qoi_num)`; if present, `find(dof)` in the inner value
map, returning `0` when absent and the stored value otherwise; if the
outer map has no entry for `qoi_num`, return `0`. -/
def hasHeterogenousAdjointConstraint
    (avs : AdjointDofConstraintValues) (qoi_num : Nat) (dof : Nat) : ℚ :=
  match lookupList avs qoi_num with
  | some m =>
      match lookupList m dof with
      | none => 0
      | some v => v
  | none => 0

/-- The index-range part of the `DofMap` state: the `_first_df` and
`_end_df` vectors (one entry per processor) and the `_n_dfs` total. -/
structure RangeState where
  first_df : List Nat
  end_df : List Nat
  n_dfs : Nat
  deriving DecidableEq

/-- `DofMap::n_dofs` (header, line 661): `return _n_dfs`. -/
def nDofs (s : RangeState) : Nat := s.n_dfs

/-- `DofMap::first_dof` (header, lines 686–687): `return _first_df[proc]`
(after asserting `proc < _first_df.size()`). -/
def firstDof (s : RangeState) (proc : Nat) : Nat := s.first_df.getD proc 0

/-- `DofMap::end_dof` (header, lines 710–711): `return _end_df[proc]`
(after asserting `proc < _end_df.size()`). -/
def endDof (s : RangeState) (proc : Nat) : Nat := s.end_df.getD proc 0

/-- `DofMap::n_dofs_on_processor` (header, lines 677–681):
`return _end_df[proc] - _first_df[proc]`. -/
def nDofsOnProcessor (s : RangeState) (proc : Nat) : Nat :=
  endDof s proc - firstDof s proc

/-- The index in a list of the first element strictly greater than `d`:
on a sorted list this is exactly `std::upper_bound(begin, end, d) - begin`,
as used by `DofMap::dof_owner`. -/
def upperBoundIdx : List Nat → Nat → Nat
  | [], _ => 0
  | x :: rest, d => if d < x then 0 else upperBoundIdx rest d + 1

/-- `DofMap::dof_owner` (header, lines 719–724):
`ub = std::upper_bound(_end_df.begin(), _end_df.end(), dof);
return ub - _end_df.begin();`. -/
def dofOwner (s : RangeState) (dof : Nat) : Nat := upperBoundIdx s.end_df dof

/-- Modelled from the spec: the body of `DofMap::distribute_dofs` is not
part of the excerpt.  Per the spec (§4.3), each process counts its local
DOFs and "an exclusive-prefix-sum-style exchange establishes
`first_dof`/`end_dof` per process"; the total count is the sum across
all processes.  `counts` is the per-process local DOF count. -/
def distributeDofs (counts : List Nat) : RangeState :=
  { first_df := (List.range counts.length).map (fun p => (counts.take p).sum)
    end_df := (List.range counts.length).map (fun p => (counts.take (p + 1)).sum)
    n_dfs := counts.sum }

/-- The DOF-id key set of a constraint row. -/
def rowKeys (row : DofConstraintRow) : List Nat := row.map Prod.fst

/-- Whether some key of `row` is itself a constrained DOF of table `t`. -/
def rowHasConstrainedKey (t : DofConstraints) (row : DofConstraintRow) : Bool :=
  row.any (fun kv => isConstrained t kv.1)

/-- `row[k] += c` on a `std::map`-modelling association list: add `c` to
the coefficient at key `k`, inserting the key at the end if absent. -/
def addToRow (row : DofConstraintRow) (k : Nat) (c : ℚ) : DofConstraintRow :=
  match row with
  | [] => [(k, c)]
  | (k', c') :: rest =>
      if k' = k then (k', c' + c) :: rest else (k', c') :: addToRow rest k c

/-- The right-hand-side offset stored for DOF `d`, defaulting to `0`
when `d` has no entry (only nonzero offsets are stored). -/
def lookupRhs (vals : DofConstraintValueMap) (d : Nat) : ℚ :=
  (lookupList vals d).getD 0

/-- Modelled from the spec: one substitution sweep of constraint
resolution.  Every key of `row` that is itself constrained in `t` is
replaced by that master's own row scaled by the key's coefficient, and
the key's coefficient times the master's right-hand-side offset is
accumulated into `rhs`; unconstrained keys are kept. -/
def substStep (t : DofConstraints) (vals : DofConstraintValueMap)
    (row : DofConstraintRow) (rhs : ℚ) : DofConstraintRow × ℚ :=
  row.foldl
    (fun acc kv =>
      match lookupList t kv.1 with
      | some mrow =>
          (mrow.foldl (fun r mv => addToRow r mv.1 (kv.2 * mv.2)) acc.1,
           acc.2 + kv.2 * lookupRhs vals kv.1)
      | none => (addToRow acc.1 kv.1 kv.2, acc.2))
    ([], rhs)

/-- Modelled from the spec: resolution of a single constraint row —
"repeatedly substitute each row's master DOFs that are themselves
constrained, accumulating coefficients and RHS, until every row refers
only to unconstrained masters".  `fuel` bounds the number of sweeps
(finite for acyclic input); exhaustion returns `none`. -/
def resolveRow (t : DofConstraints) (vals : DofConstraintValueMap) :
    Nat → DofConstraintRow → ℚ → Option (DofConstraintRow × ℚ)
  | 0, row, rhs =>
      if rowHasConstrainedKey t row then none else some (row, rhs)
  | fuel + 1, row, rhs =>
      if rowHasConstrainedKey t row then
        resolveRow t vals fuel (substStep t vals row rhs).1 (substStep t vals row rhs).2
      else some (row, rhs)

/-- Resolve every listed constraint row against the table `t`, producing
the updated table entries and the updated right-hand-side map in the
same key order. -/
def processEntries (t : DofConstraints) (vals : DofConstraintValueMap) :
    List (Nat × DofConstraintRow) → Option (DofConstraints × DofConstraintValueMap)
  | [] => some ([], [])
  | (d, row) :: rest =>
      match resolveRow t vals t.length row (lookupRhs vals d),
            processEntries t vals rest with
      | some (row', rhs'), some (rest', vals') =>
          some ((d, row') :: rest', (d, rhs') :: vals')
      | _, _ => none

/-- Modelled from the spec: the body of `DofMap::process_constraints` is
not part of the excerpt.  Per the spec (§4.4) it postprocesses every
constrained DOF "to be constrained only in terms of unconstrained dofs"
by recursive substitution, updating the master coefficients and the
right-hand-side values; `none` models non-termination of the
substitution on invalid (cyclic) input. -/
def processConstraints (t : DofConstraints) (vals : DofConstraintValueMap) :
    Option (DofConstraints × DofConstraintValueMap) :=
  processEntries t vals t

/-- The finite universe of DOF ids mentioned by the constraint table:
all constrained DOFs and all master DOFs of any row. -/
def allNodes (t : DofConstraints) : Finset Nat :=
  (t.map Prod.fst).toFinset ∪ (t.map (fun e => rowKeys e.2)).flatten.toFinset

/-- The master DOFs of `d`: the keys of the row constraining `d`
(empty when `d` is unconstrained). -/
def masters (t : DofConstraints) (d : Nat) : Finset Nat :=
  match lookupList t d with
  | some row => (rowKeys row).toFinset
  | none => ∅

/-- One step of the reachable-set expansion of the constraint dependency
graph: add every master of every member. -/
def stepF (t : DofConstraints) (S : Finset Nat) : Finset Nat :=
  S ∪ S.biUnion (masters t)

/-- Iterate the reachable-set expansion `n` times. -/
def iterF (t : DofConstraints) : Nat → Finset Nat → Finset Nat
  | 0, S => S
  | n + 1, S => iterF t n (stepF t S)

/-- The DOFs reachable from `d` along constraint dependencies in at
least one step: expansion of `d`'s masters iterated to saturation
(`card (allNodes t) + 1` rounds always reach the fixed point). -/
def reachF (t : DofConstraints) (d : Nat) : Finset Nat :=
  iterF t ((allNodes t).card + 1) (masters t d)

/-- Modelled from the spec: the body of
`DofMap::check_for_constraint_loops` is not part of the excerpt.  Per
the header doc (lines 952–967) and spec §4.4, it "walks the dependency
graph explicitly and raises a fatal error if a DOF transitively depends
on itself".  `true` models the fatal `A -> B -> C -> A` loop error. -/
def checkForConstraintLoops (t : DofConstraints) : Bool :=
  t.any (fun e => decide (e.1 ∈ reachF t e.1))

/-- The edge relation of the constraint dependency graph: DOF `a` is
constrained and `b` is one of its row's master DOF ids. -/
def dependsOn (t : DofConstraints) (a b : Nat) : Prop :=
  ∃ row, lookupList t a = some row ∧ b ∈ rowKeys row

/-- A constraint loop: some DOF transitively depends on itself
(`A -> B -> C -> A` in the header's example). -/
def hasConstraintLoop (t : DofConstraints) : Prop :=
  ∃ d, Relation.TransGen (dependsOn t) d d

/-- A `DirichletBoundary` object, reduced to what the precedence rule
needs: the boundary ids it claims and the prescribed value. -/
structure DirichletBoundary where
  b_ids : List Nat
  value : ℚ
  deriving DecidableEq

/-- Whether boundary `b` claims DOF `d`: `onB d bid` says that DOF `d`
lies on mesh boundary `bid`, and `b` claims `d` when `d` lies on any of
`b`'s boundary ids. -/
def boundaryClaims (onB : Nat → Nat → Bool) (b : DirichletBoundary)
    (d : Nat) : Bool :=
  b.b_ids.any (fun bid => onB d bid)

/-- The constraint state built while applying Dirichlet boundaries: the
DOF-constraint table and the primal right-hand-side values. -/
structure DirichletState where
  table : DofConstraints
  vals : DofConstraintValueMap
  deriving DecidableEq

/-- Modelled from the spec: applying one `DirichletBoundary` to the
mesh's DOFs.  Each DOF the boundary claims that is not yet constrained
gains a constraint row (empty master set) whose right-hand side is the
boundary's prescribed value; a DOF that is already constrained is left
alone — "the *first* DirichletBoundary to constrain the DOF wins"
(header doc, lines 1337–1350). -/
def applyBoundary (onB : Nat → Nat → Bool) (dofs : List Nat)
    (b : DirichletBoundary) (st : DirichletState) : DirichletState :=
  dofs.foldl
    (fun st d =>
      if boundaryClaims onB b d && !(isConstrained st.table d) then
        ⟨(d, []) :: st.table, (d, b.value) :: st.vals⟩
      else st)
    st

/-- Modelled from the spec: the constraints implied by the registered
`DirichletBoundary` objects "are imposed in the same order in which
DirichletBoundary objects are added to the DofMap" via
`add_dirichlet_boundary` (header doc, lines 1337–1350). -/
def applyDirichletBoundaries (onB : Nat → Nat → Bool) (dofs : List Nat)
    (bs : List DirichletBoundary) (st : DirichletState) : DirichletState :=
  bs.foldl (fun st b => applyBoundary onB dofs b st) st

/-- `l[k] = v` on a `std::map`-modelling association list: replace the
entry at key `k`, appending it if absent. -/
def setEntry {β : Type} : List (Nat × β) → Nat → β → List (Nat × β)
  | [], d, v => [(d, v)]
  | (k, w) :: rest, d, v =>
      if k = d then (d, v) :: rest else (k, w) :: setEntry rest d v

/-- Modelled from the spec: the body of the inhomogeneous
`DofMap::add_constraint_row` overload (header, lines 969–976) is not
part of the excerpt.  Per spec §4.4, inserting a row for an
already-constrained DOF errors when `forbid_constraint_overwrite` is
true (the existing row is left in place, since no new state is
produced) and silently overwrites otherwise; the row and its
right-hand side are stored in the tables. -/
def addConstraintRow (t : DofConstraints) (vals : DofConstraintValueMap)
    (dof : Nat) (row : DofConstraintRow) (rhs : ℚ) (forbid : Bool) :
    Except String (DofConstraints × DofConstraintValueMap) :=
  if forbid && isConstrained t dof then
    Except.error "Tried to add an existing constraint row"
  else
    Except.ok (setEntry t dof row, setEntry vals dof rhs)

/-- The homogeneous `DofMap::add_constraint_row` overload (header,
lines 999–1002, inline): forwards to the inhomogeneous overload with a
zero right-hand side; `forbid_constraint_overwrite` defaults to
`true`. -/
def addConstraintRowHomogeneous (t : DofConstraints)
    (vals : DofConstraintValueMap) (dof : Nat) (row : DofConstraintRow)
    (forbid : Bool := true) :
    Except String (DofConstraints × DofConstraintValueMap) :=
  addConstraintRow t vals dof row 0 forbid

/-- Append `k` to the index list if it is not already present. -/
def insertIfAbsent (l : List Nat) (k : Nat) : List Nat :=
  if l.contains k then l else l ++ [k]

/-- Modelled from the spec: the index-set expansion performed by the
`constrain_element_*` family — "adds those dofs in terms of which any of
the existing dofs is constrained" (header doc of `constrain_nothing`,
lines 1253–1259): every master DOF of every constrained DOF of the
element's list is appended (without duplicates). -/
def expandDofsGo (t : DofConstraints) : List Nat → List Nat → List Nat
  | [], acc => acc
  | d :: rest, acc =>
      expandDofsGo t rest
        (match lookupList t d with
         | some row => (rowKeys row).foldl insertIfAbsent acc
         | none => acc)

/-- Modelled from the spec (continued): the expansion walks the
element's DOF list, appending the masters of each constrained DOF. -/
def expandDofs (t : DofConstraints) (dofs : List Nat) : List Nat :=
  expandDofsGo t dofs dofs

/-- Modelled from the spec: the constraint matrix `C` of an element.
Row `k` (an original element DOF) is the identity row when that DOF is
unconstrained, and otherwise holds its constraint row's coefficients at
the columns of the expanded DOF list. -/
def cCoef (t : DofConstraints) (dofs dofs' : List Nat) (k i : Nat) : ℚ :=
  match lookupList t (dofs.getD k 0) with
  | some row => (lookupList row (dofs'.getD i 0)).getD 0
  | none => if k = i then 1 else 0

/-- Modelled from the spec: the body of
`DofMap::constrain_element_matrix_and_vector` (header, lines 1169–1180)
is not part of the excerpt.  Per spec §4.4 it replaces "every
constrained row/column with the substituted combination, folding its
coefficient into the rows/columns of its masters" — i.e. `K ← Cᵀ K C`
and `F ← Cᵀ F` over the expanded DOF list — and (with the default
`asymmetric_constraint_rows = true`) writes the constraint equation
back into each constrained row.  Matrix and vector are indexed over the
expanded DOF list; the original entries occupy the leading indices. -/
def constrainElementMatrixAndVector (t : DofConstraints)
    (K : Nat → Nat → ℚ) (F : Nat → ℚ) (dofs : List Nat) :
    (Nat → Nat → ℚ) × (Nat → ℚ) × List Nat :=
  let dofs' := expandDofs t dofs
  let n := dofs.length
  let K' := fun i j => ∑ k ∈ Finset.range n, ∑ l ∈ Finset.range n,
    cCoef t dofs dofs' k i * K k l * cCoef t dofs dofs' l j
  let F' := fun i => ∑ k ∈ Finset.range n, cCoef t dofs dofs' k i * F k
  let K2 := fun i j =>
    match lookupList t (dofs'.getD i 0) with
    | some row => if i = j then 1 else -((lookupList row (dofs'.getD j 0)).getD 0)
    | none => K' i j
  let F2 := fun i =>
    match lookupList t (dofs'.getD i 0) with
    | some _ => 0
    | none => F' i
  (K2, F2, dofs')

theorem sum_take_mono (l : List Nat) {p q : Nat} (h : p ≤ q) :
    (l.take p).sum ≤ (l.take q).sum := by
  have hq : q = p + (q - p) := (Nat.add_sub_cancel' h).symm
  rw [hq, List.take_add, List.sum_append]
  exact Nat.le_add_right _ _

theorem firstDof_distributeDofs (counts : List Nat) {p : Nat}
    (hp : p < counts.length) :
    firstDof (distributeDofs counts) p = (counts.take p).sum := by
  simp [firstDof, distributeDofs, List.getD_eq_getElem?_getD, hp]

theorem endDof_distributeDofs (counts : List Nat) {p : Nat}
    (hp : p < counts.length) :
    endDof (distributeDofs counts) p = (counts.take (p + 1)).sum := by
  simp [endDof, distributeDofs, List.getD_eq_getElem?_getD, hp]

theorem exists_take_interval (l : List Nat) (d : Nat) (hd : d < l.sum) :
    ∃ p, p < l.length ∧ (l.take p).sum ≤ d ∧ d < (l.take (p + 1)).sum := by
  induction l generalizing d with
  | nil => simp at hd
  | cons c rest ih =>
    by_cases hc : d < c
    · exact ⟨0, by simp, by simp, by simpa using hc⟩
    · push_neg at hc
      have hd' : d - c < rest.sum := by
        simp only [List.sum_cons] at hd
        omega
      obtain ⟨p', hp', hlo, hhi⟩ := ih (d - c) hd'
      refine ⟨p' + 1, by simpa using hp', ?_, ?_⟩
      · simp only [List.take_succ_cons, List.sum_cons]
        omega
      · simp only [List.take_succ_cons, List.sum_cons]
        omega

/-- C1: after `distribute_dofs`, the per-process DOF ranges form a
contiguous partition of `[0, n_dofs())`: `first_dof(p) = end_dof(p-1)`
for `p > 0`; `end_dof` on the last process equals `n_dofs()`; the ranges
are pairwise disjoint and cover the whole range (every DOF id below
`n_dofs()` lies in exactly one process's range); and
`n_dofs_on_processor(p) = end_dof(p) - first_dof(p)` for every `p`. -/
theorem distributeDofs_partition (counts : List Nat) :
    (∀ p, 0 < p → p < counts.length →
      firstDof (distributeDofs counts) p = endDof (distributeDofs counts) (p - 1)) ∧
    (counts ≠ [] →
      endDof (distributeDofs counts) (counts.length - 1) = nDofs (distributeDofs counts)) ∧
    (∀ d, d < nDofs (distributeDofs counts) →
      ∃! p, p < counts.length ∧
        firstDof (distributeDofs counts) p ≤ d ∧ d < endDof (distributeDofs counts) p) ∧
    (∀ p, p < counts.length →
      nDofsOnProcessor (distributeDofs counts) p =
        endDof (distributeDofs counts) p - firstDof (distributeDofs counts) p) := by
  refine ⟨?_, ?_, ?_, ?_⟩
  · intro p hp0 hp
    rw [firstDof_distributeDofs counts hp,
        endDof_distributeDofs counts (by omega : p - 1 < counts.length)]
    have hp1 : p - 1 + 1 = p := by omega
    rw [hp1]
  · intro hne
    have hlen : 0 < counts.length := List.length_pos.2 hne
    rw [endDof_distributeDofs counts (by omega : counts.length - 1 < counts.length)]
    have : counts.length - 1 + 1 = counts.length := by omega
    rw [this, List.take_length]
    rfl
  · intro d hd
    obtain ⟨p, hp, hlo, hhi⟩ := exists_take_interval counts d hd
    refine ⟨p, ⟨hp, ?_, ?_⟩, ?_⟩
    · rw [firstDof_distributeDofs counts hp]; exact hlo
    · rw [endDof_distributeDofs counts hp]; exact hhi
    · rintro q ⟨hq, hqlo, hqhi⟩
      rw [firstDof_distributeDofs counts hq] at hqlo
      rw [endDof_distributeDofs counts hq] at hqhi
      by_contra hne
      rcases Nat.lt_or_ge q p with hlt | hge
      · have : (counts.take (q + 1)).sum ≤ (counts.take p).sum :=
          sum_take_mono counts (by omega)
        omega
      · have hlt : p < q := by omega
        have : (counts.take (p + 1)).sum ≤ (counts.take q).sum :=
          sum_take_mono counts (by omega)
        omega
  · intro p _
    rfl

/-- Witness for C1 at `counts = [2, 0, 3]`: contiguity at `p = 1`, the
last end equals `n_dofs = 5`, DOF id 3 lies in exactly one range, and
the processor-count identity at `p = 2`. -/
theorem distributeDofs_partition_witness :
    ((0 : Nat) < 1 ∧ 1 < ([2, 0, 3] : List Nat).length ∧
      firstDof (distributeDofs [2, 0, 3]) 1 = endDof (distributeDofs [2, 0, 3]) 0) ∧
    (([2, 0, 3] : List Nat) ≠ [] ∧
      endDof (distributeDofs [2, 0, 3]) 2 = nDofs (distributeDofs [2, 0, 3])) ∧
    ((3 : Nat) < nDofs (distributeDofs [2, 0, 3]) ∧
      ∃! p, p < ([2, 0, 3] : List Nat).length ∧
        firstDof (distributeDofs [2, 0, 3]) p ≤ 3 ∧
        3 < endDof (distributeDofs [2, 0, 3]) p) ∧
    ((2 : Nat) < ([2, 0, 3] : List Nat).length ∧
      nDofsOnProcessor (distributeDofs [2, 0, 3]) 2 =
        endDof (distributeDofs [2, 0, 3]) 2 - firstDof (distributeDofs [2, 0, 3]) 2) := by
  have h := distributeDofs_partition [2, 0, 3]
  exact ⟨⟨by decide, by decide, h.1 1 (by decide) (by decide)⟩,
         ⟨by decide, h.2.1 (by decide)⟩,
         ⟨by decide, h.2.2.1 3 (by decide)⟩,
         ⟨by decide, h.2.2.2 2 (by decide)⟩⟩

theorem upperBoundIdx_eq (ends : List Nat) (d : Nat) :
    ∀ p, p < ends.length → d < ends.getD p 0 →
      (∀ q, q < p → ends.getD q 0 ≤ d) → upperBoundIdx ends d = p := by
  induction ends with
  | nil => intro p hp; simp at hp
  | cons x rest ih =>
    intro p hp hd hlow
    match p with
    | 0 =>
      simp only [List.getD_cons_zero] at hd
      simp [upperBoundIdx, hd]
    | p' + 1 =>
      have hx : x ≤ d := by
        have := hlow 0 (by omega)
        simpa using this
      simp only [upperBoundIdx, if_neg (by omega : ¬ d < x)]
      have : upperBoundIdx rest d = p' := by
        refine ih p' (by simpa using hp) (by simpa using hd) ?_
        intro q hq
        have := hlow (q + 1) (by omega)
        simpa using this
      omega

theorem endDof_mono (s : RangeState)
    (hcont : ∀ p, p + 1 < s.end_df.length → firstDof s (p + 1) = endDof s p)
    (hfe : ∀ p, p < s.end_df.length → firstDof s p ≤ endDof s p) :
    ∀ q r, q ≤ r → r < s.end_df.length → endDof s q ≤ endDof s r := by
  intro q r hqr hr
  induction r with
  | zero =>
    have : q = 0 := by omega
    simp [this]
  | succ r' ih =>
    rcases Nat.lt_or_ge q (r' + 1) with hlt | hge
    · have h1 : endDof s q ≤ endDof s r' := ih (by omega) (by omega)
      have h2 : endDof s r' = firstDof s (r' + 1) := (hcont r' hr).symm
      have h3 : firstDof s (r' + 1) ≤ endDof s (r' + 1) := hfe (r' + 1) hr
      omega
    · have : q = r' + 1 := by omega
      simp [this]

/-- C2: under the contiguous-partition invariant on the
`_first_df`/`_end_df` vectors, `dof_owner(d)` returns the unique process
`p` such that `first_dof(p) ≤ d < end_dof(p)`. -/
theorem dofOwner_correct (s : RangeState)
    (_hlen : s.first_df.length = s.end_df.length)
    (hcont : ∀ p, p + 1 < s.end_df.length → firstDof s (p + 1) = endDof s p)
    (hfe : ∀ p, p < s.end_df.length → firstDof s p ≤ endDof s p)
    (d p : Nat) (hp : p < s.end_df.length)
    (hlo : firstDof s p ≤ d) (hhi : d < endDof s p) :
    dofOwner s d = p ∧
    ∀ q, q < s.end_df.length → firstDof s q ≤ d → d < endDof s q → q = p := by
  have key : ∀ r, r < s.end_df.length → firstDof s r ≤ d → d < endDof s r →
      dofOwner s d = r := by
    intro r hr hrlo hrhi
    refine upperBoundIdx_eq s.end_df d r hr hrhi ?_
    intro q hq
    calc s.end_df.getD q 0 = endDof s q := rfl
      _ ≤ endDof s (r - 1) :=
          endDof_mono s hcont hfe q (r - 1) (by omega) (by omega)
      _ = firstDof s r := by
          have hr1 : (r - 1) + 1 = r := by omega
          have := hcont (r - 1) (by omega)
          rw [hr1] at this
          exact this.symm
      _ ≤ d := hrlo
  refine ⟨key p hp hlo hhi, ?_⟩
  intro q hq hqlo hqhi
  have h1 := key p hp hlo hhi
  have h2 := key q hq hqlo hqhi
  omega

/-- Witness for C2: ranges `[0,2) [2,2) [2,5)` over three processes;
DOF id 3 is owned by process 2. -/
theorem dofOwner_correct_witness :
    ((⟨[0, 2, 2], [2, 2, 5], 5⟩ : RangeState).first_df.length =
        (⟨[0, 2, 2], [2, 2, 5], 5⟩ : RangeState).end_df.length ∧
     (2 : Nat) < (⟨[0, 2, 2], [2, 2, 5], 5⟩ : RangeState).end_df.length ∧
     firstDof ⟨[0, 2, 2], [2, 2, 5], 5⟩ 2 ≤ 3 ∧ 3 < endDof ⟨[0, 2, 2], [2, 2, 5], 5⟩ 2) ∧
    (dofOwner ⟨[0, 2, 2], [2, 2, 5], 5⟩ 3 = 2 ∧
     ∀ q, q < (⟨[0, 2, 2], [2, 2, 5], 5⟩ : RangeState).end_df.length →
       firstDof ⟨[0, 2, 2], [2, 2, 5], 5⟩ q ≤ 3 →
       3 < endDof ⟨[0, 2, 2], [2, 2, 5], 5⟩ q → q = 2) :=
  ⟨⟨by decide, by decide, by decide, by decide⟩,
   dofOwner_correct ⟨[0, 2, 2], [2, 2, 5], 5⟩ (by decide)
     (by intro p hp
         have hp2 : p < 2 := by simp at hp; omega
         interval_cases p <;> decide)
     (by intro p hp
         have hp3 : p < 3 := by simpa using hp
         interval_cases p <;> decide)
     3 2 (by decide) (by decide) (by decide)⟩

/-- C9: starting from a state whose stashed table is empty, stashing and
then unstashing restores the active DOF-constraint table exactly and
leaves the stashed table empty; in the intermediate state the active
table is empty, so `is_constrained_dof` is `false` for every DOF id. -/
theorem stash_unstash_roundtrip (s : ConstraintState)
    (h : s.stashed_dof_constraints = []) :
    unstashDofConstraints (stashDofConstraints s) = s ∧
    (stashDofConstraints s).dof_constraints = [] ∧
    (∀ d : Nat, isConstrained (stashDofConstraints s).dof_constraints d = false) ∧
    (unstashDofConstraints (stashDofConstraints s)).stashed_dof_constraints = [] := by
  refine ⟨?_, ?_, ?_, ?_⟩
  · simp [unstashDofConstraints, stashDofConstraints]
  · simp [stashDofConstraints, h]
  · intro d
    simp [stashDofConstraints, h, isConstrained, lookupList]
  · simp [unstashDofConstraints, stashDofConstraints, h]

/-- Witness for C9 at a concrete state with one active constraint row. -/
theorem stash_unstash_roundtrip_witness :
    (ConstraintState.stashed_dof_constraints ⟨[(2, [(5, 1)])], []⟩ = []) ∧
    (unstashDofConstraints (stashDofConstraints ⟨[(2, [(5, 1)])], []⟩) =
       ⟨[(2, [(5, 1)])], []⟩ ∧
     (stashDofConstraints ⟨[(2, [(5, 1)])], []⟩).dof_constraints = [] ∧
     (∀ d : Nat, isConstrained
        (stashDofConstraints ⟨[(2, [(5, 1)])], []⟩).dof_constraints d = false) ∧
     (unstashDofConstraints
        (stashDofConstraints ⟨[(2, [(5, 1)])], []⟩)).stashed_dof_constraints = []) :=
  ⟨rfl, stash_unstash_roundtrip ⟨[(2, [(5, 1)])], []⟩ rfl⟩

/-- C10: if no heterogeneous adjoint right-hand-side value is stored for
the pair `(qoi_num, dof)` — either because the outer map has no entry
for `qoi_num` or because the inner value map has none for `dof` — then
`has_heterogenous_adjoint_constraint` returns exactly `0`; and
`has_heterogenous_adjoint_constraints` returns `false` whenever the
value map for `qoi_num` is absent or empty. -/
theorem adjoint_constraint_defaults
    (avs : AdjointDofConstraintValues) (qoi_num dof : Nat)
    (h : lookupList avs qoi_num = none ∨
         ∃ m, lookupList avs qoi_num = some m ∧ lookupList m dof = none) :
    hasHeterogenousAdjointConstraint avs qoi_num dof = 0 ∧
    ((lookupList avs qoi_num = none ∨ lookupList avs qoi_num = some []) →
      hasHeterogenousAdjointConstraints avs qoi_num = false) := by
  constructor
  · rcases h with h | ⟨m, hm, hd⟩
    · simp [hasHeterogenousAdjointConstraint, h]
    · simp [hasHeterogenousAdjointConstraint, hm, hd]
  · intro h2
    rcases h2 with h2 | h2
    · simp [hasHeterogenousAdjointConstraints, h2]
    · simp [hasHeterogenousAdjointConstraints, h2, List.isEmpty]

/-- Witness for C10: a table storing adjoint values only for qoi 0 and
dof 4; querying qoi 0 at dof 9 and querying the empty qoi-1 map. -/
theorem adjoint_constraint_defaults_witness :
    (lookupList ([(0, [(4, 3)]), (1, [])] : AdjointDofConstraintValues) 0 =
        some [(4, 3)] ∧
     lookupList ([(4, 3)] : DofConstraintValueMap) 9 = none) ∧
    (hasHeterogenousAdjointConstraint [(0, [(4, 3)]), (1, [])] 0 9 = 0 ∧
     ((lookupList ([(0, [(4, 3)]), (1, [])] : AdjointDofConstraintValues) 1 = none ∨
       lookupList ([(0, [(4, 3)]), (1, [])] : AdjointDofConstraintValues) 1 = some []) →
      hasHeterogenousAdjointConstraints [(0, [(4, 3)]), (1, [])] 1 = false)) :=
  ⟨⟨rfl, rfl⟩, by
    have h := adjoint_constraint_defaults [(0, [(4, 3)]), (1, [])] 0 9
      (Or.inr ⟨[(4, 3)], rfl, rfl⟩)
    have h2 := adjoint_constraint_defaults [(0, [(4, 3)]), (1, [])] 1 9
      (Or.inr ⟨[], rfl, rfl⟩)
    exact ⟨h.1, h2.2⟩⟩

theorem isConstrained_iff_mem (t : DofConstraints) (k : Nat) :
    isConstrained t k = true ↔ k ∈ t.map Prod.fst := by
  induction t with
  | nil => simp [isConstrained, lookupList]
  | cons e rest ih =>
    obtain ⟨k', v⟩ := e
    by_cases hk : k' = k
    · subst hk
      simp [isConstrained, lookupList]
    · simp only [isConstrained, lookupList, if_neg hk, List.map_cons, List.mem_cons]
      rw [← isConstrained]
      constructor
      · intro h
        exact Or.inr (ih.1 h)
      · rintro (h | h)
        · exact absurd h.symm hk
        · exact ih.2 h

theorem isConstrained_congr {t t' : DofConstraints}
    (h : t.map Prod.fst = t'.map Prod.fst) (k : Nat) :
    isConstrained t k = isConstrained t' k := by
  have h1 := isConstrained_iff_mem t k
  have h2 := isConstrained_iff_mem t' k
  rw [h] at h1
  cases ht : isConstrained t k <;> cases ht' : isConstrained t' k <;> simp_all

theorem rowHasConstrainedKey_congr {t t' : DofConstraints}
    (h : t.map Prod.fst = t'.map Prod.fst) (row : DofConstraintRow) :
    rowHasConstrainedKey t row = rowHasConstrainedKey t' row := by
  unfold rowHasConstrainedKey
  congr 1
  funext kv
  exact isConstrained_congr h kv.1

theorem unconstrained_of_not_rowHasConstrainedKey {t : DofConstraints}
    {row : DofConstraintRow} (h : rowHasConstrainedKey t row = false) :
    ∀ k ∈ rowKeys row, isConstrained t k = false := by
  intro k hk
  simp only [rowKeys, List.mem_map] at hk
  obtain ⟨kv, hkv, hfst⟩ := hk
  simp only [rowHasConstrainedKey, List.any_eq_false] at h
  have := h kv hkv
  subst hfst
  simpa using this

theorem not_rowHasConstrainedKey_of_unconstrained {t : DofConstraints}
    {row : DofConstraintRow}
    (h : ∀ k ∈ rowKeys row, isConstrained t k = false) :
    rowHasConstrainedKey t row = false := by
  simp only [rowHasConstrainedKey, List.any_eq_false]
  intro kv hkv
  have := h kv.1 (by simp only [rowKeys, List.mem_map]; exact ⟨kv, hkv, rfl⟩)
  simp [this]

theorem resolveRow_some_unconstrained (t : DofConstraints)
    (vals : DofConstraintValueMap) :
    ∀ fuel row rhs row' rhs',
      resolveRow t vals fuel row rhs = some (row', rhs') →
      rowHasConstrainedKey t row' = false := by
  intro fuel
  induction fuel with
  | zero =>
    intro row rhs row' rhs' h
    by_cases hc : rowHasConstrainedKey t row
    · simp [resolveRow, hc] at h
    · simp [resolveRow, hc] at h
      rw [← h.1]
      simpa using hc
  | succ f ih =>
    intro row rhs row' rhs' h
    by_cases hc : rowHasConstrainedKey t row
    · simp only [resolveRow, hc, if_true] at h
      exact ih _ _ _ _ h
    · simp [resolveRow, hc] at h
      rw [← h.1]
      simpa using hc

theorem resolveRow_of_unconstrained (t : DofConstraints)
    (vals : DofConstraintValueMap) (fuel : Nat) (row : DofConstraintRow)
    (rhs : ℚ) (h : rowHasConstrainedKey t row = false) :
    resolveRow t vals fuel row rhs = some (row, rhs) := by
  cases fuel <;> simp [resolveRow, h]

theorem processEntries_keys (t : DofConstraints) (vals : DofConstraintValueMap) :
    ∀ L L' V', processEntries t vals L = some (L', V') →
      L'.map Prod.fst = L.map Prod.fst ∧ V'.map Prod.fst = L.map Prod.fst := by
  intro L
  induction L with
  | nil =>
    intro L' V' h
    simp only [processEntries, Option.some.injEq, Prod.mk.injEq] at h
    rw [← h.1, ← h.2]
    exact ⟨rfl, rfl⟩
  | cons e rest ih =>
    obtain ⟨d, row⟩ := e
    intro L' V' h
    simp only [processEntries] at h
    cases hr : resolveRow t vals t.length row (lookupRhs vals d) with
    | none => rw [hr] at h; simp at h
    | some pr =>
      cases hp : processEntries t vals rest with
      | none => rw [hr, hp] at h; simp at h
      | some pv =>
        obtain ⟨row', rhs'⟩ := pr
        obtain ⟨rest', vals'⟩ := pv
        rw [hr, hp] at h
        simp only [Option.some.injEq, Prod.mk.injEq] at h
        obtain ⟨ihl, ihv⟩ := ih rest' vals' hp
        rw [← h.1, ← h.2]
        simp [ihl, ihv]

theorem processEntries_rows_resolved (t : DofConstraints)
    (vals : DofConstraintValueMap) :
    ∀ L L' V', processEntries t vals L = some (L', V') →
      ∀ e ∈ L', rowHasConstrainedKey t e.2 = false := by
  intro L
  induction L with
  | nil =>
    intro L' V' h
    simp only [processEntries, Option.some.injEq, Prod.mk.injEq] at h
    rw [← h.1]
    intro e he
    simp at he
  | cons e rest ih =>
    obtain ⟨d, row⟩ := e
    intro L' V' h
    simp only [processEntries] at h
    cases hr : resolveRow t vals t.length row (lookupRhs vals d) with
    | none => rw [hr] at h; simp at h
    | some pr =>
      cases hp : processEntries t vals rest with
      | none => rw [hr, hp] at h; simp at h
      | some pv =>
        obtain ⟨row', rhs'⟩ := pr
        obtain ⟨rest', vals'⟩ := pv
        rw [hr, hp] at h
        simp only [Option.some.injEq, Prod.mk.injEq] at h
        rw [← h.1]
        intro e2 he2
        rcases List.mem_cons.1 he2 with he2 | he2
        · rw [he2]
          exact resolveRow_some_unconstrained t vals _ _ _ _ _ hr
        · exact ih rest' vals' hp e2 he2

theorem processEntries_of_resolved (t : DofConstraints)
    (vals : DofConstraintValueMap) :
    ∀ L, (∀ e ∈ L, rowHasConstrainedKey t e.2 = false) →
      processEntries t vals L =
        some (L, L.map (fun e => (e.1, lookupRhs vals e.1))) := by
  intro L
  induction L with
  | nil => intro _; rfl
  | cons e rest ih =>
    obtain ⟨d, row⟩ := e
    intro h
    have h1 : rowHasConstrainedKey t row = false := h (d, row) (List.mem_cons_self _ _)
    have h2 := ih (fun e2 he2 => h e2 (List.mem_cons_of_mem _ he2))
    simp only [processEntries, h2,
      resolveRow_of_unconstrained t vals t.length row (lookupRhs vals d) h1]
    rfl

theorem map_key_congr {β γ δ : Type} (f : Nat → δ)
    (L1 : List (Nat × β)) (L2 : List (Nat × γ))
    (h : L1.map Prod.fst = L2.map Prod.fst) :
    L1.map (fun e => (e.1, f e.1)) = L2.map (fun e => (e.1, f e.1)) := by
  have e1 : L1.map (fun e => (e.1, f e.1)) =
      (L1.map Prod.fst).map (fun k => (k, f k)) := by
    rw [List.map_map]
    rfl
  have e2 : L2.map (fun e => (e.1, f e.1)) =
      (L2.map Prod.fst).map (fun k => (k, f k)) := by
    rw [List.map_map]
    rfl
  rw [e1, e2, h]

theorem map_lookupRhs_self (V : DofConstraintValueMap)
    (hnd : (V.map Prod.fst).Nodup) :
    V.map (fun e => (e.1, lookupRhs V e.1)) = V := by
  induction V with
  | nil => rfl
  | cons e rest ih =>
    obtain ⟨d, v⟩ := e
    simp only [List.map_cons, List.nodup_cons] at hnd
    have hhead : lookupRhs ((d, v) :: rest) d = v := by
      simp [lookupRhs, lookupList]
    have hcong : rest.map (fun e => (e.1, lookupRhs ((d, v) :: rest) e.1)) =
        rest.map (fun e => (e.1, lookupRhs rest e.1)) := by
      apply List.map_congr_left
      intro e2 he2
      have hne : d ≠ e2.1 := by
        intro hdd
        exact hnd.1 (hdd ▸ List.mem_map_of_mem Prod.fst he2)
      simp [lookupRhs, lookupList, hne]
    simp only [List.map_cons, hhead, hcong, ih hnd.2]

/-- C3: after `process_constraints` completes successfully, every master
DOF id appearing as a key in any resolved constraint row is itself
unconstrained: `is_constrained_dof(k)` is false for every key `k` of
every row of the resulting constraint table. -/
theorem process_constraints_resolved (t : DofConstraints)
    (vals : DofConstraintValueMap) (t' : DofConstraints)
    (vals' : DofConstraintValueMap)
    (h : processConstraints t vals = some (t', vals')) :
    ∀ d row, (d, row) ∈ t' → ∀ k ∈ rowKeys row, isConstrained t' k = false := by
  intro d row hmem k hk
  have hkeys := (processEntries_keys t vals t t' vals' h).1
  have hres := processEntries_rows_resolved t vals t t' vals' h (d, row) hmem
  have := unconstrained_of_not_rowHasConstrainedKey hres k hk
  rw [← isConstrained_congr hkeys.symm k]
  exact this

/-- Witness for C3: DOF 0 constrained in terms of constrained DOF 1 and
free DOF 2; DOF 1 constrained in terms of free DOF 3.  Resolution
rewrites row 0 onto the free DOFs 3 and 2, and every key of the
resolved table is unconstrained. -/
theorem process_constraints_resolved_witness :
    (processConstraints [(0, [(1, 1/2), (2, 1/2)]), (1, [(3, 1)])] [(0, 0), (1, 5)] =
      some ([(0, [(3, 1/2), (2, 1/2)]), (1, [(3, 1)])], [(0, 5/2), (1, 5)])) ∧
    (∀ d row, (d, row) ∈ ([(0, [(3, 1/2), (2, 1/2)]), (1, [(3, 1)])] : DofConstraints) →
      ∀ k ∈ rowKeys row,
        isConstrained [(0, [(3, 1/2), (2, 1/2)]), (1, [(3, 1)])] k = false) :=
  ⟨by norm_num [processConstraints, processEntries, resolveRow, substStep,
       rowHasConstrainedKey, isConstrained, lookupList, lookupRhs, addToRow],
   process_constraints_resolved [(0, [(1, 1/2), (2, 1/2)]), (1, [(3, 1)])]
     [(0, 0), (1, 5)] [(0, [(3, 1/2), (2, 1/2)]), (1, [(3, 1)])] [(0, 5/2), (1, 5)]
     (by norm_num [processConstraints, processEntries, resolveRow, substStep,
       rowHasConstrainedKey, isConstrained, lookupList, lookupRhs, addToRow])⟩

/-- C5: `process_constraints` is idempotent — if a first call succeeds,
a second call on its output (no new raw constraint rows added in
between) returns exactly the same resolved rows and right-hand-side
values. -/
theorem process_constraints_idempotent (t : DofConstraints)
    (vals : DofConstraintValueMap) (t' : DofConstraints)
    (vals' : DofConstraintValueMap)
    (hnd : (t.map Prod.fst).Nodup)
    (h : processConstraints t vals = some (t', vals')) :
    processConstraints t' vals' = some (t', vals') := by
  have hkeys := processEntries_keys t vals t t' vals' h
  have hrows := processEntries_rows_resolved t vals t t' vals' h
  have hrows' : ∀ e ∈ t', rowHasConstrainedKey t' e.2 = false := by
    intro e he
    rw [← rowHasConstrainedKey_congr hkeys.1.symm e.2]
    exact hrows e he
  have hmain := processEntries_of_resolved t' vals' t' hrows'
  have hvkeys : t'.map Prod.fst = vals'.map Prod.fst := by
    rw [hkeys.1, hkeys.2]
  have hmap : t'.map (fun e => (e.1, lookupRhs vals' e.1)) =
      vals'.map (fun e => (e.1, lookupRhs vals' e.1)) :=
    map_key_congr (lookupRhs vals') t' vals' hvkeys
  have hvnd : (vals'.map Prod.fst).Nodup := by
    rw [hkeys.2]
    exact hnd
  rw [processConstraints, hmain, hmap, map_lookupRhs_self vals' hvnd]

/-- Witness for C5 at the same concrete table as the C3 witness: the
second call reproduces the resolved table and right-hand sides exactly. -/
theorem process_constraints_idempotent_witness :
    ((([(0, [(1, 1/2), (2, 1/2)]), (1, [(3, 1)])] : DofConstraints).map
        Prod.fst).Nodup ∧
     processConstraints [(0, [(1, 1/2), (2, 1/2)]), (1, [(3, 1)])] [(0, 0), (1, 5)] =
       some ([(0, [(3, 1/2), (2, 1/2)]), (1, [(3, 1)])], [(0, 5/2), (1, 5)])) ∧
    processConstraints [(0, [(3, 1/2), (2, 1/2)]), (1, [(3, 1)])] [(0, 5/2), (1, 5)] =
      some ([(0, [(3, 1/2), (2, 1/2)]), (1, [(3, 1)])], [(0, 5/2), (1, 5)]) :=
  ⟨⟨by decide, by norm_num [processConstraints, processEntries, resolveRow, substStep,
       rowHasConstrainedKey, isConstrained, lookupList, lookupRhs, addToRow]⟩,
   process_constraints_idempotent [(0, [(1, 1/2), (2, 1/2)]), (1, [(3, 1)])]
     [(0, 0), (1, 5)] [(0, [(3, 1/2), (2, 1/2)]), (1, [(3, 1)])] [(0, 5/2), (1, 5)]
     (by decide) (by norm_num [processConstraints, processEntries, resolveRow, substStep,
       rowHasConstrainedKey, isConstrained, lookupList, lookupRhs, addToRow])⟩

theorem lookupList_mem {β : Type} {t : List (Nat × β)} {d : Nat} {v : β}
    (h : lookupList t d = some v) : (d, v) ∈ t := by
  induction t with
  | nil => simp [lookupList] at h
  | cons e rest ih =>
    obtain ⟨k, v'⟩ := e
    by_cases hk : k = d
    · subst hk
      simp [lookupList] at h
      rw [← h]
      exact List.mem_cons_self _ _
    · simp only [lookupList, if_neg hk] at h
      exact List.mem_cons_of_mem _ (ih h)

theorem dependsOn_mem_masters {t : DofConstraints} {a b : Nat}
    (h : dependsOn t a b) : b ∈ masters t a := by
  obtain ⟨row, hrow, hb⟩ := h
  simp [masters, hrow, hb]

theorem masters_subset_allNodes (t : DofConstraints) (d : Nat) :
    masters t d ⊆ allNodes t := by
  intro x hx
  unfold masters at hx
  cases hl : lookupList t d with
  | none => rw [hl] at hx; simp at hx
  | some row =>
    rw [hl] at hx
    simp only [List.mem_toFinset] at hx
    have hmem : (d, row) ∈ t := lookupList_mem hl
    unfold allNodes
    apply Finset.mem_union_right
    simp only [List.mem_toFinset, List.mem_flatten]
    exact ⟨rowKeys row, List.mem_map_of_mem _ hmem, hx⟩

theorem subset_stepF (t : DofConstraints) (S : Finset Nat) :
    S ⊆ stepF t S :=
  Finset.subset_union_left

theorem stepF_subset_allNodes (t : DofConstraints) {S : Finset Nat}
    (h : S ⊆ allNodes t) : stepF t S ⊆ allNodes t := by
  unfold stepF
  apply Finset.union_subset h
  intro x hx
  rw [Finset.mem_biUnion] at hx
  obtain ⟨y, _, hxy⟩ := hx
  exact masters_subset_allNodes t y hxy

theorem subset_iterF (t : DofConstraints) :
    ∀ n S, S ⊆ iterF t n S := by
  intro n
  induction n with
  | zero => intro S; exact subset_of_eq rfl
  | succ n ih =>
    intro S
    exact (subset_stepF t S).trans (ih (stepF t S))

theorem iterF_fix (t : DofConstraints) {S : Finset Nat}
    (h : stepF t S = S) : ∀ n, iterF t n S = S := by
  intro n
  induction n with
  | zero => rfl
  | succ n ih =>
    show iterF t n (stepF t S) = S
    rw [h, ih]

theorem iterF_stabilizes (t : DofConstraints) :
    ∀ n S, S ⊆ allNodes t → (allNodes t).card + 1 ≤ n + S.card →
      stepF t (iterF t n S) = iterF t n S := by
  intro n
  induction n with
  | zero =>
    intro S hsub hcard
    have := Finset.card_le_card hsub
    omega
  | succ n ih =>
    intro S hsub hcard
    by_cases hfix : stepF t S = S
    · show stepF t (iterF t n (stepF t S)) = iterF t n (stepF t S)
      rw [hfix, iterF_fix t hfix n, hfix]
    · show stepF t (iterF t n (stepF t S)) = iterF t n (stepF t S)
      apply ih (stepF t S) (stepF_subset_allNodes t hsub)
      have hss : S ⊂ stepF t S :=
        Finset.ssubset_iff_subset_ne.2 ⟨subset_stepF t S, fun h => hfix h.symm⟩
      have := Finset.card_lt_card hss
      omega

theorem stepF_reachF (t : DofConstraints) (d : Nat) :
    stepF t (reachF t d) = reachF t d :=
  iterF_stabilizes t ((allNodes t).card + 1) (masters t d)
    (masters_subset_allNodes t d) (by omega)

theorem mem_stepF_of_dependsOn {t : DofConstraints} {S : Finset Nat}
    {b c : Nat} (hb : b ∈ S) (h : dependsOn t b c) : c ∈ stepF t S := by
  apply Finset.mem_union_right
  rw [Finset.mem_biUnion]
  exact ⟨b, hb, dependsOn_mem_masters h⟩

theorem transGen_mem_reachF {t : DofConstraints} {d x : Nat}
    (h : Relation.TransGen (dependsOn t) d x) : x ∈ reachF t d := by
  induction h with
  | single h1 =>
    exact subset_iterF t _ _ (dependsOn_mem_masters h1)
  | tail _ h2 ih =>
    have := mem_stepF_of_dependsOn ih h2
    rwa [stepF_reachF t d] at this

/-- C4: if the raw constraint rows contain a constraint loop (some DOF
transitively depends on itself), then `check_for_constraint_loops`
detects it and reports the documented fatal error (modelled as the
check returning `true`). -/
theorem constraint_loop_detected (t : DofConstraints)
    (h : hasConstraintLoop t) : checkForConstraintLoops t = true := by
  obtain ⟨d, hd⟩ := h
  obtain ⟨x, hdx, _⟩ := Relation.TransGen.head'_iff.1 hd
  obtain ⟨row, hrow, _⟩ := hdx
  have hmem : (d, row) ∈ t := lookupList_mem hrow
  have hreach : d ∈ reachF t d := transGen_mem_reachF hd
  unfold checkForConstraintLoops
  rw [List.any_eq_true]
  exact ⟨(d, row), hmem, by simpa using hreach⟩

/-- Witness for C4 at the header's own example `A -> B -> C -> A`:
DOF 0 constrained by 1, 1 by 2, 2 by 0.  The loop exists and the check
reports the fatal error. -/
theorem constraint_loop_detected_witness :
    hasConstraintLoop [(0, [(1, 1)]), (1, [(2, 1)]), (2, [(0, 1)])] ∧
    checkForConstraintLoops [(0, [(1, 1)]), (1, [(2, 1)]), (2, [(0, 1)])] = true := by
  have hloop : hasConstraintLoop [(0, [(1, 1)]), (1, [(2, 1)]), (2, [(0, 1)])] := by
    refine ⟨0, ?_⟩
    have h01 : dependsOn [(0, [(1, 1)]), (1, [(2, 1)]), (2, [(0, 1)])] 0 1 :=
      ⟨[(1, 1)], by simp [lookupList], by simp [rowKeys]⟩
    have h12 : dependsOn [(0, [(1, 1)]), (1, [(2, 1)]), (2, [(0, 1)])] 1 2 :=
      ⟨[(2, 1)], by simp [lookupList], by simp [rowKeys]⟩
    have h20 : dependsOn [(0, [(1, 1)]), (1, [(2, 1)]), (2, [(0, 1)])] 2 0 :=
      ⟨[(0, 1)], by simp [lookupList], by simp [rowKeys]⟩
    exact Relation.TransGen.head h01
      (Relation.TransGen.head h12 (Relation.TransGen.single h20))
  exact ⟨hloop,
    constraint_loop_detected [(0, [(1, 1)]), (1, [(2, 1)]), (2, [(0, 1)])] hloop⟩

theorem applyBoundary_cons (onB : Nat → Nat → Bool) (d0 : Nat)
    (rest : List Nat) (b : DirichletBoundary) (st : DirichletState) :
    applyBoundary onB (d0 :: rest) b st =
      applyBoundary onB rest b
        (if boundaryClaims onB b d0 && !(isConstrained st.table d0) then
          ⟨(d0, []) :: st.table, (d0, b.value) :: st.vals⟩
        else st) := rfl

theorem applyBoundary_preserves (onB : Nat → Nat → Bool)
    (b : DirichletBoundary) :
    ∀ (dofs : List Nat) (st : DirichletState) (d : Nat),
      isConstrained st.table d = true →
      isConstrained (applyBoundary onB dofs b st).table d = true ∧
      lookupList (applyBoundary onB dofs b st).vals d = lookupList st.vals d := by
  intro dofs
  induction dofs with
  | nil => intro st d h; exact ⟨h, rfl⟩
  | cons d0 rest ih =>
    intro st d h
    rw [applyBoundary_cons]
    cases hg : boundaryClaims onB b d0 && !(isConstrained st.table d0) with
    | true =>
      rw [if_pos rfl]
      rw [Bool.and_eq_true] at hg
      have hd0 : isConstrained st.table d0 = false := by
        simpa using hg.2
      have hne : d0 ≠ d := by
        intro he
        rw [he, h] at hd0
        simp at hd0
      have h1 : isConstrained ((d0, []) :: st.table) d = true := by
        simpa [isConstrained, lookupList, if_neg hne] using h
      obtain ⟨ha, hb⟩ := ih ⟨(d0, []) :: st.table, (d0, b.value) :: st.vals⟩ d h1
      refine ⟨ha, ?_⟩
      rw [hb]
      simp [lookupList, if_neg hne]
    | false =>
      rw [if_neg (by simp)]
      exact ih st d h

theorem applyBoundary_unclaimed (onB : Nat → Nat → Bool)
    (b : DirichletBoundary) :
    ∀ (dofs : List Nat) (st : DirichletState) (d : Nat),
      boundaryClaims onB b d = false →
      isConstrained (applyBoundary onB dofs b st).table d = isConstrained st.table d ∧
      lookupList (applyBoundary onB dofs b st).vals d = lookupList st.vals d := by
  intro dofs
  induction dofs with
  | nil => intro st d _; exact ⟨rfl, rfl⟩
  | cons d0 rest ih =>
    intro st d hc
    rw [applyBoundary_cons]
    cases hg : boundaryClaims onB b d0 && !(isConstrained st.table d0) with
    | true =>
      rw [if_pos rfl]
      rw [Bool.and_eq_true] at hg
      have hne : d0 ≠ d := by
        intro he
        have h1 := hg.1
        rw [he, hc] at h1
        simp at h1
      obtain ⟨ha, hb⟩ :=
        ih ⟨(d0, []) :: st.table, (d0, b.value) :: st.vals⟩ d hc
      constructor
      · rw [ha]
        simp [isConstrained, lookupList, if_neg hne]
      · rw [hb]
        simp [lookupList, if_neg hne]
    | false =>
      rw [if_neg (by simp)]
      exact ih st d hc

theorem applyBoundary_first_claim (onB : Nat → Nat → Bool)
    (b : DirichletBoundary) :
    ∀ (dofs : List Nat) (st : DirichletState) (d : Nat),
      d ∈ dofs → boundaryClaims onB b d = true →
      isConstrained st.table d = false →
      isConstrained (applyBoundary onB dofs b st).table d = true ∧
      lookupList (applyBoundary onB dofs b st).vals d = some b.value := by
  intro dofs
  induction dofs with
  | nil => intro st d hmem; exact absurd hmem (List.not_mem_nil d)
  | cons d0 rest ih =>
    intro st d hmem hc hfree
    rw [applyBoundary_cons]
    by_cases hd0 : d0 = d
    · subst hd0
      cases hg : boundaryClaims onB b d0 && !(isConstrained st.table d0) with
      | true =>
        rw [if_pos rfl]
        have h1 : isConstrained ((d0, []) :: st.table) d0 = true := by
          simp [isConstrained, lookupList]
        obtain ⟨ha, hb⟩ :=
          applyBoundary_preserves onB b rest
            ⟨(d0, []) :: st.table, (d0, b.value) :: st.vals⟩ d0 h1
        refine ⟨ha, ?_⟩
        rw [hb]
        simp [lookupList]
      | false =>
        rw [hc, hfree] at hg
        simp at hg
    · have hmem' : d ∈ rest := by
        rcases List.mem_cons.1 hmem with he | he
        · exact absurd he.symm hd0
        · exact he
      cases hg : boundaryClaims onB b d0 && !(isConstrained st.table d0) with
      | true =>
        rw [if_pos rfl]
        apply ih _ d hmem' hc
        simpa [isConstrained, lookupList, if_neg hd0] using hfree
      | false =>
        rw [if_neg (by simp)]
        exact ih st d hmem' hc hfree

theorem applyDirichletBoundaries_cons (onB : Nat → Nat → Bool)
    (dofs : List Nat) (b : DirichletBoundary)
    (bs : List DirichletBoundary) (st : DirichletState) :
    applyDirichletBoundaries onB dofs (b :: bs) st =
      applyDirichletBoundaries onB dofs bs (applyBoundary onB dofs b st) := rfl

theorem applyDirichletBoundaries_preserves (onB : Nat → Nat → Bool)
    (dofs : List Nat) :
    ∀ (bs : List DirichletBoundary) (st : DirichletState) (d : Nat),
      isConstrained st.table d = true →
      isConstrained (applyDirichletBoundaries onB dofs bs st).table d = true ∧
      lookupList (applyDirichletBoundaries onB dofs bs st).vals d =
        lookupList st.vals d := by
  intro bs
  induction bs with
  | nil => intro st d h; exact ⟨h, rfl⟩
  | cons b rest ih =>
    intro st d h
    rw [applyDirichletBoundaries_cons]
    obtain ⟨h1, h2⟩ := applyBoundary_preserves onB b dofs st d h
    obtain ⟨h3, h4⟩ := ih (applyBoundary onB dofs b st) d h1
    exact ⟨h3, h4.trans h2⟩

theorem applyDirichletBoundaries_unclaimed (onB : Nat → Nat → Bool)
    (dofs : List Nat) :
    ∀ (bs : List DirichletBoundary) (st : DirichletState) (d : Nat),
      (∀ b ∈ bs, boundaryClaims onB b d = false) →
      isConstrained (applyDirichletBoundaries onB dofs bs st).table d =
        isConstrained st.table d ∧
      lookupList (applyDirichletBoundaries onB dofs bs st).vals d =
        lookupList st.vals d := by
  intro bs
  induction bs with
  | nil => intro st d _; exact ⟨rfl, rfl⟩
  | cons b rest ih =>
    intro st d h
    rw [applyDirichletBoundaries_cons]
    obtain ⟨h1, h2⟩ :=
      applyBoundary_unclaimed onB b dofs st d (h b (List.mem_cons_self _ _))
    obtain ⟨h3, h4⟩ := ih (applyBoundary onB dofs b st) d
      (fun b' hb' => h b' (List.mem_cons_of_mem _ hb'))
    exact ⟨h3.trans h1, h4.trans h2⟩

/-- C6: Dirichlet boundaries are applied in registration order, and the
first boundary to constrain a DOF wins: if no boundary registered
before `b` claims DOF `d`, `b` claims `d`, and `d` starts
unconstrained, then after applying all boundaries `d` is constrained
with right-hand side `b.value`, regardless of later boundaries that
also claim `d`. -/
theorem dirichlet_first_wins (onB : Nat → Nat → Bool) (dofs : List Nat)
    (bs1 bs2 : List DirichletBoundary) (b : DirichletBoundary)
    (st : DirichletState) (d : Nat)
    (hmem : d ∈ dofs)
    (hclaims : boundaryClaims onB b d = true)
    (hfirst : ∀ b' ∈ bs1, boundaryClaims onB b' d = false)
    (hfree : isConstrained st.table d = false) :
    isConstrained
      (applyDirichletBoundaries onB dofs (bs1 ++ b :: bs2) st).table d = true ∧
    lookupList
      (applyDirichletBoundaries onB dofs (bs1 ++ b :: bs2) st).vals d =
      some b.value := by
  have happ : applyDirichletBoundaries onB dofs (bs1 ++ b :: bs2) st =
      applyDirichletBoundaries onB dofs (b :: bs2)
        (applyDirichletBoundaries onB dofs bs1 st) := by
    unfold applyDirichletBoundaries
    rw [List.foldl_append]
  rw [happ, applyDirichletBoundaries_cons]
  have hstill : isConstrained
      (applyDirichletBoundaries onB dofs bs1 st).table d = false := by
    rw [(applyDirichletBoundaries_unclaimed onB dofs bs1 st d hfirst).1]
    exact hfree
  obtain ⟨h1, h2⟩ := applyBoundary_first_claim onB b dofs
    (applyDirichletBoundaries onB dofs bs1 st) d hmem hclaims hstill
  obtain ⟨h3, h4⟩ := applyDirichletBoundaries_preserves onB dofs bs2
    (applyBoundary onB dofs b (applyDirichletBoundaries onB dofs bs1 st)) d h1
  exact ⟨h3, h4.trans h2⟩

/-- Witness for C6, the spec's scenario: a boundary on id 3 with value
7 registered first, then a second boundary on id 3 with value 9.  DOF 5
lies on boundary 3 and resolves with right-hand side 7. -/
theorem dirichlet_first_wins_witness :
    ((5 : Nat) ∈ [5] ∧
     boundaryClaims (fun d bid => decide (d = 5) && decide (bid = 3))
       ⟨[3], 7⟩ 5 = true ∧
     isConstrained (DirichletState.table ⟨[], []⟩) 5 = false) ∧
    (isConstrained
      (applyDirichletBoundaries (fun d bid => decide (d = 5) && decide (bid = 3))
        [5] ([] ++ ⟨[3], 7⟩ :: [⟨[3], 9⟩]) ⟨[], []⟩).table 5 = true ∧
     lookupList
      (applyDirichletBoundaries (fun d bid => decide (d = 5) && decide (bid = 3))
        [5] ([] ++ ⟨[3], 7⟩ :: [⟨[3], 9⟩]) ⟨[], []⟩).vals 5 =
      some (DirichletBoundary.value ⟨[3], 7⟩)) :=
  ⟨⟨by decide, by decide, by decide⟩,
   dirichlet_first_wins (fun d bid => decide (d = 5) && decide (bid = 3))
     [5] [] [⟨[3], 9⟩] ⟨[3], 7⟩ ⟨[], []⟩ 5 (by decide) (by decide)
     (by intro b' hb'; simp at hb') (by decide)⟩

theorem lookupList_eq_none_of_unconstrained {t : DofConstraints} {d : Nat}
    (h : isConstrained t d = false) : lookupList t d = none := by
  unfold isConstrained at h
  cases hl : lookupList t d with
  | none => rfl
  | some row => rw [hl] at h; simp at h

theorem getD_mem_of_lt {l : List Nat} {i : Nat} (h : i < l.length) :
    l.getD i 0 ∈ l := by
  rw [List.getD_eq_getElem?_getD, List.getElem?_eq_getElem h]
  exact List.getElem_mem h

theorem expandDofsGo_of_unconstrained (t : DofConstraints) :
    ∀ (L acc : List Nat), (∀ d ∈ L, lookupList t d = none) →
      expandDofsGo t L acc = acc := by
  intro L
  induction L with
  | nil => intro acc _; rfl
  | cons d0 rest ih =>
    intro acc h
    show expandDofsGo t rest
      (match lookupList t d0 with
       | some row => (rowKeys row).foldl insertIfAbsent acc
       | none => acc) = acc
    rw [h d0 (List.mem_cons_self _ _)]
    exact ih acc (fun d hd => h d (List.mem_cons_of_mem _ hd))

theorem expandDofs_of_unconstrained (t : DofConstraints) (dofs : List Nat)
    (h : ∀ d ∈ dofs, isConstrained t d = false) :
    expandDofs t dofs = dofs :=
  expandDofsGo_of_unconstrained t dofs dofs
    (fun d hd => lookupList_eq_none_of_unconstrained (h d hd))

theorem cCoef_of_unconstrained (t : DofConstraints) (dofs dofs' : List Nat)
    {k : Nat} (i : Nat) (hk : k < dofs.length)
    (h : ∀ d ∈ dofs, isConstrained t d = false) :
    cCoef t dofs dofs' k i = if k = i then 1 else 0 := by
  unfold cCoef
  rw [lookupList_eq_none_of_unconstrained (h _ (getD_mem_of_lt hk))]

/-- C7: `constrain_element_matrix_and_vector` on an element none of
whose DOFs is constrained is a no-op: the DOF-index list is unchanged
and the matrix and vector entries are all identical to the input. -/
theorem constrain_unconstrained_noop (t : DofConstraints)
    (K : Nat → Nat → ℚ) (F : Nat → ℚ) (dofs : List Nat)
    (h : ∀ d ∈ dofs, isConstrained t d = false) :
    (constrainElementMatrixAndVector t K F dofs).2.2 = dofs ∧
    (∀ i, i < dofs.length → ∀ j, j < dofs.length →
      (constrainElementMatrixAndVector t K F dofs).1 i j = K i j) ∧
    (∀ i, i < dofs.length →
      (constrainElementMatrixAndVector t K F dofs).2.1 i = F i) := by
  have hexp : expandDofs t dofs = dofs := expandDofs_of_unconstrained t dofs h
  refine ⟨?_, ?_, ?_⟩
  · show expandDofs t dofs = dofs
    exact hexp
  · intro i hi j hj
    show (match lookupList t ((expandDofs t dofs).getD i 0) with
      | some row => if i = j then 1
          else -((lookupList row ((expandDofs t dofs).getD j 0)).getD 0)
      | none => ∑ k ∈ Finset.range dofs.length, ∑ l ∈ Finset.range dofs.length,
          cCoef t dofs (expandDofs t dofs) k i * K k l *
            cCoef t dofs (expandDofs t dofs) l j) = K i j
    rw [hexp, lookupList_eq_none_of_unconstrained (h _ (getD_mem_of_lt hi))]
    have hsum : ∀ k ∈ Finset.range dofs.length,
        (∑ l ∈ Finset.range dofs.length,
          cCoef t dofs dofs k i * K k l * cCoef t dofs dofs l j) =
        ∑ l ∈ Finset.range dofs.length,
          (if k = i then (1 : ℚ) else 0) * K k l * (if l = j then 1 else 0) := by
      intro k hk
      apply Finset.sum_congr rfl
      intro l hl
      rw [cCoef_of_unconstrained t dofs dofs i (Finset.mem_range.1 hk) h,
          cCoef_of_unconstrained t dofs dofs j (Finset.mem_range.1 hl) h]
    rw [Finset.sum_congr rfl hsum]
    simp [mul_ite, ite_mul, mul_zero, zero_mul, mul_one, one_mul,
      Finset.sum_ite_eq, Finset.sum_ite_eq', Finset.mem_range, hi, hj]
  · intro i hi
    show (match lookupList t ((expandDofs t dofs).getD i 0) with
      | some _ => 0
      | none => ∑ k ∈ Finset.range dofs.length,
          cCoef t dofs (expandDofs t dofs) k i * F k) = F i
    rw [hexp, lookupList_eq_none_of_unconstrained (h _ (getD_mem_of_lt hi))]
    have hsum : ∀ k ∈ Finset.range dofs.length,
        cCoef t dofs dofs k i * F k =
          (if k = i then (1 : ℚ) else 0) * F k := by
      intro k hk
      rw [cCoef_of_unconstrained t dofs dofs i (Finset.mem_range.1 hk) h]
    rw [Finset.sum_congr rfl hsum]
    simp [ite_mul, zero_mul, one_mul, Finset.sum_ite_eq, Finset.mem_range, hi]

/-- Witness for C7: a table constraining only DOF 7 (not on the
element), an element with DOF list `[1, 2]` and an arbitrary concrete
matrix/vector. -/
theorem constrain_unconstrained_noop_witness :
    (∀ d ∈ [1, 2], isConstrained [(7, [(8, 1)])] d = false) ∧
    ((constrainElementMatrixAndVector [(7, [(8, 1)])]
        (fun i j => (i : ℚ) + j) (fun i => (i : ℚ)) [1, 2]).2.2 = [1, 2] ∧
     (∀ i, i < ([1, 2] : List Nat).length → ∀ j, j < ([1, 2] : List Nat).length →
       (constrainElementMatrixAndVector [(7, [(8, 1)])]
         (fun i j => (i : ℚ) + j) (fun i => (i : ℚ)) [1, 2]).1 i j =
         (fun i j => (i : ℚ) + j) i j) ∧
     (∀ i, i < ([1, 2] : List Nat).length →
       (constrainElementMatrixAndVector [(7, [(8, 1)])]
         (fun i j => (i : ℚ) + j) (fun i => (i : ℚ)) [1, 2]).2.1 i =
         (fun i => (i : ℚ)) i)) :=
  ⟨by decide,
   constrain_unconstrained_noop [(7, [(8, 1)])]
     (fun i j => (i : ℚ) + j) (fun i => (i : ℚ)) [1, 2] (by decide)⟩

theorem lookupList_setEntry_self {β : Type} (l : List (Nat × β)) (d : Nat)
    (v : β) : lookupList (setEntry l d v) d = some v := by
  induction l with
  | nil => simp [setEntry, lookupList]
  | cons e rest ih =>
    obtain ⟨k, w⟩ := e
    by_cases hk : k = d
    · simp [setEntry, hk, lookupList]
    · simp [setEntry, hk, lookupList, ih]

theorem lookupList_setEntry_ne {β : Type} (l : List (Nat × β)) (d d' : Nat)
    (v : β) (h : d' ≠ d) :
    lookupList (setEntry l d v) d' = lookupList l d' := by
  induction l with
  | nil => simp [setEntry, lookupList, Ne.symm h]
  | cons e rest ih =>
    obtain ⟨k, w⟩ := e
    by_cases hk : k = d
    · subst hk
      simp [setEntry, lookupList, Ne.symm h]
    · simp [setEntry, hk, lookupList, ih]

/-- C8: `add_constraint_row` on an already-constrained DOF raises the
fatal error when `forbid_constraint_overwrite` is true — as does the
homogeneous overload at its default — leaving the existing tables in
place (the error branch produces no new state); with
`forbid_constraint_overwrite = false` it silently replaces the existing
row with the new one, leaving every other DOF's row unchanged. -/
theorem add_constraint_row_policy (t : DofConstraints)
    (vals : DofConstraintValueMap) (dof : Nat) (row : DofConstraintRow)
    (rhs : ℚ) (h : isConstrained t dof = true) :
    addConstraintRow t vals dof row rhs true =
      Except.error "Tried to add an existing constraint row" ∧
    addConstraintRowHomogeneous t vals dof row =
      Except.error "Tried to add an existing constraint row" ∧
    addConstraintRow t vals dof row rhs false =
      Except.ok (setEntry t dof row, setEntry vals dof rhs) ∧
    lookupList (setEntry t dof row) dof = some row ∧
    (∀ d', d' ≠ dof → lookupList (setEntry t dof row) d' = lookupList t d') := by
  refine ⟨?_, ?_, ?_, ?_, ?_⟩
  · simp [addConstraintRow, h]
  · simp [addConstraintRowHomogeneous, addConstraintRow, h]
  · simp [addConstraintRow]
  · exact lookupList_setEntry_self t dof row
  · intro d' hd'
    exact lookupList_setEntry_ne t dof d' row hd'

/-- Witness for C8: DOF 4 already carries a row; re-adding errors under
the default, and overwrites with `forbid_constraint_overwrite =
false`. -/
theorem add_constraint_row_policy_witness :
    isConstrained [(4, [(5, 1)])] 4 = true ∧
    (addConstraintRow [(4, [(5, 1)])] [] 4 [(6, 2)] 3 true =
       Except.error "Tried to add an existing constraint row" ∧
     addConstraintRowHomogeneous [(4, [(5, 1)])] [] 4 [(6, 2)] =
       Except.error "Tried to add an existing constraint row" ∧
     addConstraintRow [(4, [(5, 1)])] [] 4 [(6, 2)] 3 false =
       Except.ok (setEntry [(4, [(5, 1)])] 4 [(6, 2)], setEntry [] 4 3) ∧
     lookupList (setEntry ([(4, [(5, 1)])] : DofConstraints) 4 [(6, 2)]) 4 =
       some [(6, 2)] ∧
     (∀ d', d' ≠ 4 →
       lookupList (setEntry ([(4, [(5, 1)])] : DofConstraints) 4 [(6, 2)]) d' =
         lookupList ([(4, [(5, 1)])] : DofConstraints) d')) :=
  ⟨by decide, add_constraint_row_policy [(4, [(5, 1)])] [] 4 [(6, 2)] 3 (by decide)⟩

end LibmeshDofMap
